import Mathlib

set_option maxHeartbeats 1000000
set_option maxRecDepth 4000

namespace Pufferwatch

/-! # Data model (src/ast.rs)

Strings are embedded as `List Char`; Rust machine integers (`u8` timestamp
fields) are embedded as `Nat` with the range check `≤ 255` performed
explicitly where the code performs it (`u8::from_str`). -/

/-- Log severity levels (src/ast.rs, `Level`). -/
inductive Level where
  | Trace
  | Debug
  | Info
  | Alert
  | Warn
  | Error
deriving DecidableEq, Repr

/-- Timestamps (src/ast.rs, `Timestamp`). In the code the three fields are
`u8`; the parser only ever constructs values `≤ 255` (see `parseU8`), so
`Nat` fields are a faithful embedding. -/
structure Timestamp where
  hour : Nat
  minute : Nat
  second : Nat
deriving DecidableEq, Repr

/-- A structured log message (src/ast.rs, `Message`). `Cow` strings are
embedded as plain `List Char`. -/
structure Message where
  timestamp : Timestamp
  level : Level
  source : List Char
  contents : List Char
deriving DecidableEq, Repr

/-! # Parser (src/parse.rs)

The code uses nom combinators over `&str`. Each combinator is embedded as a
function over `List Char` returning `Option (List Char × α)` (remaining
input, value); `none` is a nom parse error. -/

/-- nom `digit1` character class: ASCII digits. -/
def isDigitC (c : Char) : Bool := 48 ≤ c.toNat && c.toNat ≤ 57

/-- nom `space0` and `space1` character class: space and tab. -/
def isSpaceTab (c : Char) : Bool := c = ' ' || c = '\t'

/-- The character class of nom `take_till(c == '\n')`: not a newline. -/
def notNl (c : Char) : Bool := c ≠ '\n'

/-- The character class of nom `take_till1(c == ']')`: not a closing bracket. -/
def notRBracket (c : Char) : Bool := c ≠ ']'

/-- nom `tag`: match a literal, return the remaining input. -/
def tag : List Char → List Char → Option (List Char)
  | [], i => some i
  | _ :: _, [] => none
  | t :: ts, c :: cs => if c = t then tag ts cs else none

/-- The shared shape of nom's `digit1`, `space1` and `take_till1`: the
maximal prefix whose characters satisfy `p`, failing when it is empty. -/
def span1 (p : Char → Bool) (i : List Char) : Option (List Char × List Char) :=
  if i.takeWhile p = [] then none else some (i.dropWhile p, i.takeWhile p)

/-- nom `digit1`: one or more ASCII digits (maximal run). -/
def digit1 (i : List Char) : Option (List Char × List Char) :=
  span1 isDigitC i

/-- nom `space1`: one or more spaces/tabs (maximal run). -/
def space1 (i : List Char) : Option (List Char) :=
  (span1 isSpaceTab i).map Prod.fst

/-- nom `take_till1 (c == ']')`: one or more characters up to (excluding) the
first `]`. Note: this is not line-bounded, it crosses newlines. -/
def takeTill1RBracket (i : List Char) : Option (List Char × List Char) :=
  span1 notRBracket i

/-- The numeric value of a run of ASCII digits (what `str::parse` computes). -/
def natOfDigits (ds : List Char) : Nat :=
  ds.foldl (fun acc c => acc * 10 + (c.toNat - 48)) 0

/-- Rust `u8::from_str` on an all-digit run: succeeds exactly when the value
fits in a `u8` (checked arithmetic fails exactly on overflow past 255). -/
def parseU8 (ds : List Char) : Option Nat :=
  if natOfDigits ds ≤ 255 then some (natOfDigits ds) else none

/-- The timestamp sub-parser of `parse_message` (src/parse.rs lines 18-30):
`digit1 ":" digit1 ":" digit1` followed by the three `u8` conversions
(`map_res`). -/
def pTimestamp (i : List Char) : Option (List Char × Timestamp) :=
  match digit1 i with
  | none => none
  | some (i, hh) =>
    match tag ((":").data) i with
    | none => none
    | some i =>
      match digit1 i with
      | none => none
      | some (i, mm) =>
        match tag ((":").data) i with
        | none => none
        | some i =>
          match digit1 i with
          | none => none
          | some (i, ss) =>
            match parseU8 hh with
            | none => none
            | some hour =>
              match parseU8 mm with
              | none => none
              | some minute =>
                match parseU8 ss with
                | none => none
                | some second => some (i, ⟨hour, minute, second⟩)

/-- The level sub-parser of `parse_message` (src/parse.rs lines 31-38):
`alt` over the six literal keywords, in source order. -/
def pLevel (i : List Char) : Option (List Char × Level) :=
  match tag (("TRACE").data) i with
  | some r => some (r, Level.Trace)
  | none =>
    match tag (("DEBUG").data) i with
    | some r => some (r, Level.Debug)
    | none =>
      match tag (("INFO").data) i with
      | some r => some (r, Level.Info)
      | none =>
        match tag (("ALERT").data) i with
        | some r => some (r, Level.Alert)
        | none =>
          match tag (("WARN").data) i with
          | some r => some (r, Level.Warn)
          | none =>
            match tag (("ERROR").data) i with
            | some r => some (r, Level.Error)
            | none => none

/-- The header part of `parse_message` (src/parse.rs lines 42-50):
`delimited(tag("["), (preceded(space0, ts), preceded(space1, level),
preceded(space1, take_till1(']'))), tag("]"))`. -/
def pHeader (i : List Char) : Option (List Char × (Timestamp × Level × List Char)) :=
  match tag (("[").data) i with
  | none => none
  | some i =>
    match pTimestamp (i.dropWhile isSpaceTab) with
    | none => none
    | some (i, ts) =>
      match space1 i with
      | none => none
      | some i =>
        match pLevel i with
        | none => none
        | some (i, lv) =>
          match space1 i with
          | none => none
          | some i =>
            match takeTill1RBracket i with
            | none => none
            | some (i, src) =>
              match tag (("]").data) i with
              | none => none
              | some i => some (i, (ts, lv, src))

/-- `parse_message` (src/parse.rs lines 14-62): header, one space, then
`take_till('\n')` as the first-line contents. -/
def parse_message (i : List Char) : Option (List Char × Message) :=
  match pHeader i with
  | none => none
  | some (i, (ts, lv, src)) =>
    match tag ((" ").data) i with
    | none => none
    | some i =>
      some (i.dropWhile notNl, ⟨ts, lv, src, i.takeWhile notNl⟩)

/-- The `ParsedLine` enum local to `parse_log` (src/parse.rs lines 68-71). -/
inductive ParsedLine where
  | Start : Message → ParsedLine
  | Continued : List Char → ParsedLine
deriving DecidableEq, Repr

/-- `alt((map(parse_message, Start), map(take_till('\n'), Continued)))`
(src/parse.rs lines 73-76). The second branch always succeeds. -/
def altLine (i : List Char) : List Char × ParsedLine :=
  match parse_message i with
  | some (r, m) => (r, ParsedLine.Start m)
  | none => (i.dropWhile notNl, ParsedLine.Continued (i.takeWhile notNl))

/-- `terminated(parse_line_or_continuation, tag("\n"))` (src/parse.rs
line 78). nom's `alt` commits once a branch succeeds, so a failing trailing
`tag("\n")` fails the whole line parser (no re-try of the other branch). -/
def parseLineNl (i : List Char) : Option (List Char × ParsedLine) :=
  match altLine i with
  | (c :: rest, pl) => if c = '\n' then some (rest, pl) else none
  | ([], _) => none

/-- The fold step of `parse_log` (src/parse.rs lines 79-97). The accumulator
is the Rust `Result<Vec<Message>>` embedded as `Option`, with the `Vec` kept
in reverse order (`push` = cons). A continuation with no previous message
(`acc.pop()` on an empty vec) turns the accumulator into an error, which is
sticky (`acc?`). -/
def foldStep (acc : Option (List Message)) (pl : ParsedLine) : Option (List Message) :=
  match pl with
  | ParsedLine.Start m => acc.map (fun ms => m :: ms)
  | ParsedLine.Continued s =>
    acc.bind fun ms =>
      match ms with
      | [] => none
      | last :: rest => some ({ last with contents := last.contents ++ ('\n' :: s) } :: rest)

theorem tag_suffix : ∀ {t i r : List Char}, tag t i = some r → r <:+ i := by
  intro t
  induction t with
  | nil =>
    intro i r h
    simp [tag] at h
    rw [h]
  | cons a ts ih =>
    intro i r h
    cases i with
    | nil => simp [tag] at h
    | cons c cs =>
      by_cases hc : c = a
      · simp [tag, hc] at h
        exact (ih h).trans (List.suffix_cons c cs)
      · simp [tag, hc] at h

theorem span1_inv {p : Char → Bool} {i r d : List Char} (h : span1 p i = some (r, d)) :
    i.takeWhile p = d ∧ i.dropWhile p = r ∧ d ≠ [] := by
  unfold span1 at h
  by_cases ht : i.takeWhile p = []
  · simp [ht] at h
  · simp [ht] at h
    exact ⟨h.2, h.1, fun hd => ht (h.2.trans hd)⟩

theorem span1_of_parts {p : Char → Bool} {i r d : List Char} (h1 : i.takeWhile p = d)
    (h2 : i.dropWhile p = r) (h3 : d ≠ []) : span1 p i = some (r, d) := by
  unfold span1
  rw [h1, h2]
  simp [h3]

theorem span1_suffix {p : Char → Bool} {i r d : List Char} (h : span1 p i = some (r, d)) :
    r <:+ i := by
  obtain ⟨-, h2, -⟩ := span1_inv h
  rw [← h2]
  exact List.dropWhile_suffix _

theorem digit1_suffix {i r d : List Char} (h : digit1 i = some (r, d)) : r <:+ i :=
  span1_suffix h

theorem space1_suffix {i r : List Char} (h : space1 i = some r) : r <:+ i := by
  unfold space1 at h
  rcases hs : span1 isSpaceTab i with _ | ⟨r2, d2⟩ <;> rw [hs] at h
  · simp at h
  · simp at h
    rw [← h]
    exact span1_suffix hs

theorem takeTill1RBracket_suffix {i r s : List Char} (h : takeTill1RBracket i = some (r, s)) :
    r <:+ i :=
  span1_suffix h

theorem pTimestamp_suffix {i r : List Char} {ts : Timestamp}
    (h : pTimestamp i = some (r, ts)) : r <:+ i := by
  unfold pTimestamp at h
  split at h
  · simp at h
  next i1 hh h1 =>
  split at h
  · simp at h
  next i2 h2 =>
  split at h
  · simp at h
  next i3 mm h3 =>
  split at h
  · simp at h
  next i4 h4 =>
  split at h
  · simp at h
  next i5 ss h5 =>
  split at h
  · simp at h
  next hr h6 =>
  split at h
  · simp at h
  next mr h7 =>
  split at h
  · simp at h
  next sr h8 =>
  simp at h
  obtain ⟨h9, -⟩ := h
  rw [← h9]
  exact ((((digit1_suffix h5).trans (tag_suffix h4)).trans (digit1_suffix h3)).trans
    (tag_suffix h2)).trans (digit1_suffix h1)

theorem pLevel_suffix {i r : List Char} {lv : Level}
    (h : pLevel i = some (r, lv)) : r <:+ i := by
  unfold pLevel at h
  split at h
  next r1 h1 =>
    simp at h
    obtain ⟨h2, -⟩ := h
    rw [← h2]
    exact tag_suffix h1
  next h0 =>
  split at h
  next r1 h1 =>
    simp at h
    obtain ⟨h2, -⟩ := h
    rw [← h2]
    exact tag_suffix h1
  next =>
  split at h
  next r1 h1 =>
    simp at h
    obtain ⟨h2, -⟩ := h
    rw [← h2]
    exact tag_suffix h1
  next =>
  split at h
  next r1 h1 =>
    simp at h
    obtain ⟨h2, -⟩ := h
    rw [← h2]
    exact tag_suffix h1
  next =>
  split at h
  next r1 h1 =>
    simp at h
    obtain ⟨h2, -⟩ := h
    rw [← h2]
    exact tag_suffix h1
  next =>
  split at h
  next r1 h1 =>
    simp at h
    obtain ⟨h2, -⟩ := h
    rw [← h2]
    exact tag_suffix h1
  next => simp at h

theorem pHeader_suffix {i r : List Char} {x : Timestamp × Level × List Char}
    (h : pHeader i = some (r, x)) : r <:+ i := by
  unfold pHeader at h
  split at h
  · simp at h
  next i1 h1 =>
  split at h
  · simp at h
  next i2 ts h2 =>
  split at h
  · simp at h
  next i3 h3 =>
  split at h
  · simp at h
  next i4 lv h4 =>
  split at h
  · simp at h
  next i5 h5 =>
  split at h
  · simp at h
  next i6 src h6 =>
  split at h
  · simp at h
  next i7 h7 =>
  simp at h
  obtain ⟨h8, -⟩ := h
  rw [← h8]
  exact ((((((tag_suffix h7).trans (takeTill1RBracket_suffix h6)).trans (space1_suffix h5)).trans
    (pLevel_suffix h4)).trans (space1_suffix h3)).trans
    ((pTimestamp_suffix h2).trans (List.dropWhile_suffix _))).trans (tag_suffix h1)

theorem parse_message_suffix {i r : List Char} {m : Message}
    (h : parse_message i = some (r, m)) : r <:+ i := by
  unfold parse_message at h
  split at h
  · simp at h
  next i1 ts lv src h1 =>
  split at h
  · simp at h
  next i2 h2 =>
  simp at h
  obtain ⟨h3, -⟩ := h
  rw [← h3]
  exact ((List.dropWhile_suffix _).trans (tag_suffix h2)).trans (pHeader_suffix h1)

theorem altLine_suffix (i : List Char) : (altLine i).1 <:+ i := by
  unfold altLine
  split
  next r m hm => exact parse_message_suffix hm
  next => exact List.dropWhile_suffix _

theorem parseLineNl_length {i r : List Char} {pl : ParsedLine}
    (h : parseLineNl i = some (r, pl)) : r.length < i.length := by
  unfold parseLineNl at h
  have hs := altLine_suffix i
  split at h
  next c rest pl2 heq =>
    rw [heq] at hs
    by_cases hc : c = '\n'
    · simp [hc] at h
      obtain ⟨h1, -⟩ := h
      rw [← h1]
      have := hs.length_le
      simp at this
      omega
    · simp [hc] at h
  next => simp at h

/-- The `fold_many0` loop of `parse_log` (src/parse.rs lines 77-98), written
with explicit fuel so that it is structurally recursive (kernel-computable).
One fuel unit per parsed line; each successful `parseLineNl` consumes at
least the terminating newline, so `length + 1` fuel always suffices. -/
def parse_log_fuel : Nat → Option (List Message) → List Char → List Char × Option (List Message)
  | 0, acc, i => (i, acc)
  | fuel + 1, acc, i =>
    match parseLineNl i with
    | some (r, pl) => parse_log_fuel fuel (foldStep acc pl) r
    | none => (i, acc)

/-- The `fold_many0` loop of `parse_log` with adequate fuel: repeatedly parse
a newline-terminated line and fold it; stop at the first failure, returning
the remaining input and the accumulator. -/
def parse_log_aux (acc : Option (List Message)) (i : List Char) :
    List Char × Option (List Message) :=
  parse_log_fuel (i.length + 1) acc i

/-- `parse_log` / `parse_log_complete` (src/parse.rs lines 64-108): the fold
starting from an empty `Vec`, then `map_res` (an errored accumulator fails
the parse). The reversed accumulator is reversed back to document order.
nom's `complete` only converts `Incomplete` into an error and is a no-op for
these all-complete sub-parsers; in particular it does NOT require the
remaining input to be empty. -/
def parse_log (i : List Char) : List Char × Option (List Message) :=
  match parse_log_aux (some []) i with
  | (r, acc) => (r, acc.map List.reverse)

/-- `parse` (src/parse.rs lines 110-114): runs `parse_log_complete` and
discards the remaining (unconsumed) input: `let (_, messages) = ...`. -/
def parse (i : List Char) : Option (List Message) :=
  (parse_log i).2

theorem parse_log_fuel_eq (fuel : Nat) {acc : Option (List Message)} {i : List Char}
    (h : i.length < fuel) : parse_log_fuel fuel acc i = parse_log_aux acc i := by
  obtain ⟨g, rfl⟩ : ∃ g, fuel = g + 1 := ⟨fuel - 1, by omega⟩
  rcases hl : parseLineNl i with _ | ⟨r, pl⟩
  · simp [parse_log_fuel, parse_log_aux, hl]
  · have hr := parseLineNl_length hl
    have e1 : parse_log_fuel (g + 1) acc i = parse_log_fuel g (foldStep acc pl) r := by
      simp [parse_log_fuel, hl]
    have e2 : parse_log_aux acc i = parse_log_fuel i.length (foldStep acc pl) r := by
      rcases i with _ | ⟨c, cs⟩
      · simp [parseLineNl, altLine, parse_message, pHeader, tag] at hl
      · simp [parse_log_aux, parse_log_fuel, hl]
    rw [e1, e2, parse_log_fuel_eq g (by omega), parse_log_fuel_eq i.length hr]
termination_by fuel

theorem parse_log_aux_step {i r : List Char} {pl : ParsedLine}
    {acc : Option (List Message)} (h : parseLineNl i = some (r, pl)) :
    parse_log_aux acc i = parse_log_aux (foldStep acc pl) r := by
  have e2 : parse_log_aux acc i = parse_log_fuel i.length (foldStep acc pl) r := by
    rcases i with _ | ⟨c, cs⟩
    · simp [parseLineNl, altLine, parse_message, pHeader, tag] at h
    · simp [parse_log_aux, parse_log_fuel, h]
  rw [e2, parse_log_fuel_eq i.length (parseLineNl_length h)]

theorem parse_log_aux_done {i : List Char} {acc : Option (List Message)}
    (h : parseLineNl i = none) : parse_log_aux acc i = (i, acc) := by
  unfold parse_log_aux
  simp [parse_log_fuel, h]

/-! # Log model (src/log.rs) -/

/-- The log model (src/log.rs, `Log`): owns the raw text and the derived
message sequence in document order. The self-referential borrows of the Rust
struct are irrelevant to the embedding; the derived `by_source` map is
embedded as the functions `Log.by_source` / `Log.sources` below. -/
structure Log where
  raw : List Char
  messages : List Message
deriving DecidableEq, Repr

/-- `Log::empty` (src/log.rs lines 22-29): empty raw text, zero messages. -/
def Log.empty : Log := ⟨[], []⟩

/-- `Log::parse` (src/log.rs lines 32-47): parse the raw text and keep both. -/
def Log.parse (raw : List Char) : Option Log :=
  (Pufferwatch.parse raw).map fun ms => Log.mk raw ms

/-- itertools `group_by` over the message sequence keyed by source
(src/log.rs line 40): the list of maximal consecutive runs, in document
order, each tagged with its source. -/
def runsBySource : List Message → List (List Char × List Message)
  | [] => []
  | m :: ms =>
    match runsBySource ms with
    | [] => [(m.source, [m])]
    | (s, g) :: rest =>
      if m.source = s then (s, m :: g) :: rest
      else (m.source, [m]) :: (s, g) :: rest

/-- Lookup in the `by_source` HashMap (src/log.rs lines 37-44). The map is
collected from the iterator of consecutive `group_by` runs; inserting a
duplicated key overwrites, so for a source whose messages are interleaved
with another source's, only the LAST consecutive run survives. -/
def Log.by_source (log : Log) (s : List Char) : Option (List Message) :=
  ((runsBySource log.messages).reverse.find? (fun p => decide (p.1 = s))).map Prod.snd

/-- `Log::sources` (src/log.rs lines 74-76): the key set of the `by_source`
HashMap. HashMap iteration order is unspecified in the code; the embedding
uses first-occurrence order as the representative (the one consumer,
`LogFilters::with_log`, sorts the keys, so the interim order is irrelevant). -/
def Log.sources (log : Log) : List (List Char) :=
  ((runsBySource log.messages).map Prod.fst).dedup

/-- Modelled from the spec: `Log::default()` is called by
`FollowedLogSource::update_log` (src/source.rs line 145) but the impl is not
under src/; the spec says a *Removed* event "resets the target to an empty
Log (`raw == ""`, zero messages)". -/
def Log.default : Log := ⟨[], []⟩

/-- Modelled from the spec: `Log::parse_reader` (called at src/source.rs
lines 32, 113 and 154) is not under src/; the spec's `from_reader` "reads to
completion, then as above" (parses the whole text). The read outcome is
embedded as `Option (List Char)`: `none` an I/O failure, `some raw` a
completed read of the whole file. -/
def Log.parse_reader (read : Option (List Char)) : Option Log :=
  read.bind Log.parse

example : parse (("[00:01:02 INFO SMAPI] Loaded\n[00:01:03 ERROR Mod.A] Boom\ndetails\n").data) =
    some [⟨⟨0, 1, 2⟩, Level.Info, ("SMAPI").data, ("Loaded").data⟩,
      ⟨⟨0, 1, 3⟩, Level.Error, ("Mod.A").data, ("Boom\ndetails").data⟩] := by decide

example : parse (("X").data) = some [] := by decide

example : parse (("details\n").data) = none := by decide

example : parse (("[00:01:02 INFO foo\nbar] x\n").data) =
    some [⟨⟨0, 1, 2⟩, Level.Info, ("foo\nbar").data, ("x").data⟩] := by decide

example : parse (("[00:0[00:0").data) = some [] := by decide

/-! # Filters (src/widgets/formatted_log.rs) -/

/-- Byte-lexicographic order on strings: Rust `Ord` for `&str` compares
UTF-8 bytes, which coincides with codepoint order, embedded here as
`Char.toNat` order. Reflexive (`≤`) version, as used by itertools
`.sorted()`. -/
def lexLe : List Char → List Char → Bool
  | [], _ => true
  | _ :: _, [] => false
  | a :: as, b :: bs =>
    if a.toNat < b.toNat then true
    else if b.toNat < a.toNat then false
    else lexLe as bs

theorem char_eq_of_toNat_eq {a b : Char} (h : a.toNat = b.toNat) : a = b := by
  rw [← Char.ofNat_toNat a, ← Char.ofNat_toNat b, h]

theorem lexLe_total : ∀ a b : List Char, lexLe a b = true ∨ lexLe b a = true := by
  intro a
  induction a with
  | nil => intro b; left; rfl
  | cons x xs ih =>
    intro b
    cases b with
    | nil => right; rfl
    | cons y ys =>
      rcases Nat.lt_trichotomy x.toNat y.toNat with h | h | h
      · left
        simp [lexLe, h]
      · rcases ih ys with h2 | h2
        · left
          simp [lexLe, h, h2]
        · right
          simp [lexLe, h, h2]
      · right
        simp [lexLe, h]

theorem lexLe_trans : ∀ a b c : List Char,
    lexLe a b = true → lexLe b c = true → lexLe a c = true := by
  intro a
  induction a with
  | nil => intro b c _ _; rfl
  | cons x xs ih =>
    intro b c hab hbc
    cases b with
    | nil => simp [lexLe] at hab
    | cons y ys =>
      cases c with
      | nil => simp [lexLe] at hbc
      | cons z zs =>
        simp only [lexLe] at hab hbc ⊢
        by_cases h1 : x.toNat < y.toNat
        · by_cases h3 : y.toNat < z.toNat
          · simp [show x.toNat < z.toNat by omega]
          · by_cases h4 : z.toNat < y.toNat
            · simp [h3, h4] at hbc
            · simp [show x.toNat < z.toNat by omega]
        · by_cases h2 : y.toNat < x.toNat
          · simp [h1, h2] at hab
          · simp [h1, h2] at hab
            by_cases h3 : y.toNat < z.toNat
            · simp [show x.toNat < z.toNat by omega]
            · by_cases h4 : z.toNat < y.toNat
              · simp [h3, h4] at hbc
              · simp [h3, h4] at hbc
                simp [show ¬ x.toNat < z.toNat by omega, show ¬ z.toNat < x.toNat by omega]
                exact ih ys zs hab hbc

/-- The relation used for sorting sources, as a `Prop` relation for
`List.insertionSort`. -/
def rLex (a b : List Char) : Prop := lexLe a b = true

instance : DecidableRel rLex := fun a b => decEq (lexLe a b) true

instance : IsTotal (List Char) rLex := ⟨lexLe_total⟩

instance : IsTrans (List Char) rLex := ⟨lexLe_trans⟩

/-- itertools `.sorted()` over source names (formatted_log.rs line 372):
collect and sort by `Ord`. -/
def sortSources (l : List (List Char)) : List (List Char) :=
  List.insertionSort rLex l

/-- `LogFilters` (formatted_log.rs lines 338-342): an `IndexMap` per level
and one per source, embedded as association lists in insertion order (an
`IndexMap` preserves insertion order and has unique keys). -/
structure LogFilters where
  levels : List (Level × Bool)
  sources : List (List Char × Bool)
deriving DecidableEq, Repr

/-- `IndexMap::get` on the per-level map. -/
def lookupLv (l : List (Level × Bool)) (k : Level) : Option Bool :=
  (l.find? (fun p => decide (p.1 = k))).map Prod.snd

/-- `IndexMap::get` on the per-source map. -/
def lookupSrc (l : List (List Char × Bool)) (k : List Char) : Option Bool :=
  (l.find? (fun p => decide (p.1 = k))).map Prod.snd

/-- `LogFilters::level_enabled` (formatted_log.rs lines 345-347): absent
levels default to enabled. -/
def LogFilters.level_enabled (f : LogFilters) (lv : Level) : Bool :=
  (lookupLv f.levels lv).getD true

/-- `LogFilters::source_enabled` (formatted_log.rs lines 350-352): absent
sources default to enabled. -/
def LogFilters.source_enabled (f : LogFilters) (s : List Char) : Bool :=
  (lookupSrc f.sources s).getD true

/-- `LogFilters::apply` (formatted_log.rs lines 355-360): the messages, in
document order, passing both predicates. -/
def LogFilters.apply (f : LogFilters) (log : Log) : List Message :=
  log.messages.filter (fun m => f.level_enabled m.level && f.source_enabled m.source)

/-- `LogFilters::with_log` (formatted_log.rs lines 363-377): levels move
unchanged; the source map is rebuilt from the new log's distinct sources in
sorted order, each source keeping its old flag when present, else enabled. -/
def LogFilters.with_log (f : LogFilters) (log : Log) : LogFilters :=
  { levels := f.levels,
    sources := (sortSources log.sources).map fun s => (s, (lookupSrc f.sources s).getD true) }

/-! # Log sources (src/source.rs)

`anyhow::Error` values carry no information the claims depend on, so errors
are embedded as `Except Unit`. Channel contents visible to one `update_log`
call are embedded as the list of items a non-blocking drain would yield. -/

/-- `StaticLogSource::update_log` (src/source.rs lines 48-52). -/
def StaticLogSource.update_log (_log : Log) : Except Unit (Option Log) :=
  Except.ok none

/-- The coalesced watcher events (src/source.rs lines 54-58). The Rust enum
has no payload; here an *Updated* event carries the outcome the file read
triggered by it will have (src/source.rs lines 148-156): `none` when
`File::open`/read/parse-time I/O fails, `some raw` when the file is read to
completion with contents `raw`. -/
inductive FileUpdate where
  | Removed
  | Updated (readResult : Option (List Char))
deriving DecidableEq, Repr

/-- One iteration of the `try_fold` closure in
`FollowedLogSource::update_log` (src/source.rs lines 139-159): *Removed*
resets to `Log::default()`; *Updated* re-opens and re-parses the file, and
on any failure the `try_or_warn!` macro has the closure return `Ok` with the
accumulator unchanged (the event is dropped, the previous state kept). -/
def followedStep (acc : Option Log) (e : FileUpdate) : Except Unit (Option Log) :=
  match e with
  | FileUpdate.Removed => Except.ok (some Log.default)
  | FileUpdate.Updated readResult =>
    match Log.parse_reader readResult with
    | some log => Except.ok (some log)
    | none => Except.ok acc

/-- `Iterator::try_fold`: fold a fallible step over the drained events,
stopping at the first `Err`. -/
def tryFold (f : Option Log → FileUpdate → Except Unit (Option Log)) :
    Option Log → List FileUpdate → Except Unit (Option Log)
  | acc, [] => Except.ok acc
  | acc, e :: es =>
    match f acc e with
    | Except.ok acc2 => tryFold f acc2 es
    | Except.error err => Except.error err

/-- `FollowedLogSource::update_log` (src/source.rs lines 123-161):
`self.rx.try_iter().try_fold(None, ...)` over the currently pending events. -/
def FollowedLogSource.update_log (events : List FileUpdate) : Except Unit (Option Log) :=
  tryFold followedStep none events

/-- `ReaderLogSource` (src/source.rs lines 163-168): the state `update_log`
acts on is the internal unparsed-text buffer. -/
structure ReaderLogSource where
  unparsed : List Char
deriving DecidableEq, Repr

/-- The `while let Ok(line) = self.rx.try_recv()` loop of
`ReaderLogSource::update_log` (src/source.rs lines 206-208): append each
further buffered line once; a forwarded reader error is propagated by
`line?`. -/
def drainLines : ReaderLogSource → List (Except Unit (List Char)) → Except Unit ReaderLogSource
  | st, [] => Except.ok st
  | st, Except.ok l :: rest => drainLines ⟨st.unparsed ++ l⟩ rest
  | _, Except.error e :: _ => Except.error e

/-- `ReaderLogSource::update_log` (src/source.rs lines 195-221). `pending`
is what the non-blocking `try_recv` drain of the channel yields during this
call. Faithful to the code, the FIRST drained line is pushed onto the
unparsed buffer TWICE (the duplicated `push_str` at src/source.rs lines 202
and 205); each further line once. The previous log's raw text plus the
buffer is re-parsed: on success the buffer is cleared and the new log
returned, on parse failure the buffer is kept and `Ok(None)` returned. -/
def ReaderLogSource.update_log (st : ReaderLogSource)
    (pending : List (Except Unit (List Char))) (log : Log) :
    Except Unit (ReaderLogSource × Option Log) :=
  match pending with
  | [] => Except.ok (st, none)
  | Except.error e :: _ => Except.error e
  | Except.ok l :: rest =>
    match drainLines ⟨st.unparsed ++ l ++ l⟩ rest with
    | Except.error e => Except.error e
    | Except.ok st2 =>
      match Log.parse (log.raw ++ st2.unparsed) with
      | some newLog => Except.ok (⟨[]⟩, some newLog)
      | none => Except.ok (st2, none)

/-! ## Extension lemmas

A successful sub-parse is unaffected by appending further input after its
remainder (provided the remainder is non-empty, or the appended input starts
with a character the trailing maximal-run cannot absorb). These let the
line-by-line consumption of `parse_log` be reasoned about symbolically. -/

theorem tag_inv : ∀ {t i r : List Char}, tag t i = some r → i = t ++ r := by
  intro t
  induction t with
  | nil =>
    intro i r h
    simp [tag] at h
    simp [h]
  | cons a ts ih =>
    intro i r h
    cases i with
    | nil => simp [tag] at h
    | cons c cs =>
      by_cases hc : c = a
      · simp [tag, hc] at h
        simp [hc, ih h]
      · simp [tag, hc] at h

theorem tag_of_append : ∀ (t r : List Char), tag t (t ++ r) = some r := by
  intro t
  induction t with
  | nil => intro r; rfl
  | cons a ts ih => intro r; simp [tag, ih]

theorem tag_append {t i r : List Char} (h : tag t i = some r) (s : List Char) :
    tag t (i ++ s) = some (r ++ s) := by
  rw [tag_inv h, List.append_assoc]
  exact tag_of_append t (r ++ s)

theorem takeWhile_append_keep {p : Char → Bool} :
    ∀ {c : List Char} (s : List Char), c.dropWhile p ≠ [] →
      (c ++ s).takeWhile p = c.takeWhile p ∧ (c ++ s).dropWhile p = c.dropWhile p ++ s := by
  intro c
  induction c with
  | nil => intro s h; simp at h
  | cons a as ih =>
    intro s h
    by_cases ha : p a
    · simp only [List.dropWhile_cons, ha, if_pos] at h
      simp [List.takeWhile_cons, List.dropWhile_cons, ha, (ih s h).1, (ih s h).2]
    · simp [List.takeWhile_cons, List.dropWhile_cons, ha]

theorem takeWhile_append_all {p : Char → Bool} {a : Char} :
    ∀ {c : List Char} (s : List Char), (∀ x ∈ c, p x = true) → p a = false →
      (c ++ a :: s).takeWhile p = c ∧ (c ++ a :: s).dropWhile p = a :: s := by
  intro c
  induction c with
  | nil => intro s _ hpa; simp [List.takeWhile_cons, List.dropWhile_cons, hpa]
  | cons b bs ih =>
    intro s hall hpa
    have hb : p b = true := hall b (by simp)
    have hrest : ∀ x ∈ bs, p x = true := fun x hx => hall x (by simp [hx])
    simp [List.takeWhile_cons, List.dropWhile_cons, hb, (ih s hrest hpa).1, (ih s hrest hpa).2]

theorem takeWhile_of_all {p : Char → Bool} :
    ∀ {c : List Char}, (∀ x ∈ c, p x = true) → c.takeWhile p = c ∧ c.dropWhile p = [] := by
  intro c
  induction c with
  | nil => intro _; simp
  | cons b bs ih =>
    intro hall
    have hb : p b = true := hall b (by simp)
    have hrest : ∀ x ∈ bs, p x = true := fun x hx => hall x (by simp [hx])
    simp [List.takeWhile_cons, List.dropWhile_cons, hb, (ih hrest).1, (ih hrest).2]

theorem dropWhile_head_not {p : Char → Bool} :
    ∀ {i cs : List Char} {a : Char}, i.dropWhile p = a :: cs → p a = false := by
  intro i
  induction i with
  | nil => intro cs a h; simp at h
  | cons b bs ih =>
    intro cs a h
    by_cases hb : p b
    · simp only [List.dropWhile_cons, hb, if_pos] at h
      exact ih h
    · simp [List.dropWhile_cons, hb] at h
      rw [← h.1]
      simp [hb]

theorem span1_append {p : Char → Bool} {i r d : List Char} (h : span1 p i = some (r, d))
    (hr : r ≠ []) (s : List Char) : span1 p (i ++ s) = some (r ++ s, d) := by
  obtain ⟨h1, h2, h3⟩ := span1_inv h
  have hk := takeWhile_append_keep (p := p) (c := i) s (by rw [h2]; exact hr)
  exact span1_of_parts (hk.1.trans h1) (by rw [hk.2, h2]) h3

theorem space1_append {i r : List Char} (h : space1 i = some r) (hr : r ≠ [])
    (s : List Char) : space1 (i ++ s) = some (r ++ s) := by
  unfold space1 at h ⊢
  rcases hs : span1 isSpaceTab i with _ | ⟨r2, d2⟩ <;> rw [hs] at h
  · simp at h
  · simp at h
    rw [← h] at hr
    rw [span1_append hs hr s]
    simp [h]

/-- The six level keywords (src/ast.rs `Level::ALL` order = parse order). -/
def levelKw : Level → List Char
  | Level.Trace => ("TRACE").data
  | Level.Debug => ("DEBUG").data
  | Level.Info => ("INFO").data
  | Level.Alert => ("ALERT").data
  | Level.Warn => ("WARN").data
  | Level.Error => ("ERROR").data

theorem data_TRACE : ("TRACE").data = ['T', 'R', 'A', 'C', 'E'] := rfl

theorem data_DEBUG : ("DEBUG").data = ['D', 'E', 'B', 'U', 'G'] := rfl

theorem data_INFO : ("INFO").data = ['I', 'N', 'F', 'O'] := rfl

theorem data_ALERT : ("ALERT").data = ['A', 'L', 'E', 'R', 'T'] := rfl

theorem data_WARN : ("WARN").data = ['W', 'A', 'R', 'N'] := rfl

theorem data_ERROR : ("ERROR").data = ['E', 'R', 'R', 'O', 'R'] := rfl

theorem pLevel_inv {i r : List Char} {lv : Level} (h : pLevel i = some (r, lv)) :
    i = levelKw lv ++ r := by
  unfold pLevel at h
  split at h
  next r1 h1 =>
    simp at h
    rw [← h.2, ← h.1, levelKw]
    exact tag_inv h1
  next =>
  split at h
  next r1 h1 =>
    simp at h
    rw [← h.2, ← h.1, levelKw]
    exact tag_inv h1
  next =>
  split at h
  next r1 h1 =>
    simp at h
    rw [← h.2, ← h.1, levelKw]
    exact tag_inv h1
  next =>
  split at h
  next r1 h1 =>
    simp at h
    rw [← h.2, ← h.1, levelKw]
    exact tag_inv h1
  next =>
  split at h
  next r1 h1 =>
    simp at h
    rw [← h.2, ← h.1, levelKw]
    exact tag_inv h1
  next =>
  split at h
  next r1 h1 =>
    simp at h
    rw [← h.2, ← h.1, levelKw]
    exact tag_inv h1
  next => simp at h

theorem levelKw_ne_nil (lv : Level) : levelKw lv ≠ [] := by
  cases lv <;> simp [levelKw, data_TRACE, data_DEBUG, data_INFO, data_ALERT, data_WARN, data_ERROR]

theorem pLevel_of_kw (lv : Level) (r : List Char) : pLevel (levelKw lv ++ r) = some (r, lv) := by
  cases lv <;>
    simp [pLevel, levelKw, tag, data_TRACE, data_DEBUG, data_INFO, data_ALERT, data_WARN,
      data_ERROR]

theorem pLevel_append {i r : List Char} {lv : Level} (h : pLevel i = some (r, lv))
    (s : List Char) : pLevel (i ++ s) = some (r ++ s, lv) := by
  rw [pLevel_inv h, List.append_assoc]
  exact pLevel_of_kw lv (r ++ s)

theorem pTimestamp_append {i r : List Char} {ts : Timestamp}
    (h : pTimestamp i = some (r, ts)) (hr : r ≠ []) (s : List Char) :
    pTimestamp (i ++ s) = some (r ++ s, ts) := by
  unfold pTimestamp at h
  split at h
  · simp at h
  next i1 hh h1 =>
  split at h
  · simp at h
  next i2 h2 =>
  split at h
  · simp at h
  next i3 mm h3 =>
  split at h
  · simp at h
  next i4 h4 =>
  split at h
  · simp at h
  next i5 ss h5 =>
  split at h
  · simp at h
  next hv h6 =>
  split at h
  · simp at h
  next mv h7 =>
  split at h
  · simp at h
  next sv h8 =>
  simp at h
  obtain ⟨h9, h10⟩ := h
  have e1 : digit1 (i ++ s) = some (i1 ++ s, hh) :=
    span1_append h1 (by rw [tag_inv h2]; simp) s
  have e2 : tag ((":").data) (i1 ++ s) = some (i2 ++ s) := tag_append h2 s
  have e3 : digit1 (i2 ++ s) = some (i3 ++ s, mm) :=
    span1_append h3 (by rw [tag_inv h4]; simp) s
  have e4 : tag ((":").data) (i3 ++ s) = some (i4 ++ s) := tag_append h4 s
  have e5 : digit1 (i4 ++ s) = some (i5 ++ s, ss) := by
    refine span1_append h5 ?_ s
    intro h0
    rw [h9] at h0
    exact hr h0
  unfold pTimestamp
  simp only [e1, e2, e3, e4, e5, h6, h7, h8]
  simp [h9, h10]

theorem data_LBRACK : ("[").data = ['['] := rfl

theorem data_RBRACK : ("]").data = [']'] := rfl

theorem data_SPACE : (" ").data = [' '] := rfl

theorem pHeader_append {i r : List Char} {x : Timestamp × Level × List Char}
    (h : pHeader i = some (r, x)) (s : List Char) :
    pHeader (i ++ s) = some (r ++ s, x) := by
  unfold pHeader at h
  split at h
  · simp at h
  next i1 h1 =>
  split at h
  · simp at h
  next i2 ts h2 =>
  split at h
  · simp at h
  next i3 h3 =>
  split at h
  · simp at h
  next i4 lv h4 =>
  split at h
  · simp at h
  next i5 h5 =>
  split at h
  · simp at h
  next i6 src h6 =>
  split at h
  · simp at h
  next i7 h7 =>
  simp at h
  obtain ⟨h8, h9⟩ := h
  have hi2 : i2 ≠ [] := by
    intro h0
    rw [h0] at h3
    simp [space1, span1] at h3
  have hi3 : i3 ≠ [] := by
    rw [pLevel_inv h4]
    simp [levelKw_ne_nil lv]
  have hi5 : i5 ≠ [] := by
    intro h0
    rw [h0] at h6
    simp [takeTill1RBracket, span1] at h6
  have hi6 : i6 ≠ [] := by
    rw [tag_inv h7, data_RBRACK]
    simp
  have hj : i1.dropWhile isSpaceTab ≠ [] := by
    intro h0
    rw [h0] at h2
    simp [pTimestamp, digit1, span1] at h2
  have e1 : tag (("[").data) (i ++ s) = some (i1 ++ s) := tag_append h1 s
  have e2 : (i1 ++ s).dropWhile isSpaceTab = i1.dropWhile isSpaceTab ++ s :=
    (takeWhile_append_keep s hj).2
  have e3 : pTimestamp (i1.dropWhile isSpaceTab ++ s) = some (i2 ++ s, ts) :=
    pTimestamp_append h2 hi2 s
  have e4 : space1 (i2 ++ s) = some (i3 ++ s) := space1_append h3 hi3 s
  have e5 : pLevel (i3 ++ s) = some (i4 ++ s, lv) := pLevel_append h4 s
  have e6 : space1 (i4 ++ s) = some (i5 ++ s) := space1_append h5 hi5 s
  have e7 : takeTill1RBracket (i5 ++ s) = some (i6 ++ s, src) := span1_append h6 hi6 s
  have e8 : tag (("]").data) (i6 ++ s) = some (i7 ++ s) := tag_append h7 s
  unfold pHeader
  simp only [e1, e2, e3, e4, e5, e6, e7, e8]
  simp [h8, h9]

theorem parse_message_append {i r : List Char} {m : Message}
    (h : parse_message i = some (r, m)) (hr : r ≠ []) (s : List Char) :
    parse_message (i ++ s) = some (r ++ s, m) := by
  unfold parse_message at h
  split at h
  · simp at h
  next i1 ts lv src h1 =>
  split at h
  · simp at h
  next i2 h2 =>
  simp at h
  obtain ⟨h3, h4⟩ := h
  have hi1 : i1 ≠ [] := by
    rw [tag_inv h2, data_SPACE]
    simp
  have e1 : pHeader (i ++ s) = some (i1 ++ s, (ts, lv, src)) := pHeader_append h1 s
  have e2 : tag ((" ").data) (i1 ++ s) = some (i2 ++ s) := tag_append h2 s
  have e3 : (i2 ++ s).dropWhile notNl = i2.dropWhile notNl ++ s :=
    (takeWhile_append_keep s (by rw [h3]; exact hr)).2
  have e4 : (i2 ++ s).takeWhile notNl = i2.takeWhile notNl :=
    (takeWhile_append_keep s (by rw [h3]; exact hr)).1
  unfold parse_message
  simp only [e1, e2, e3, e4]
  simp [h3, h4]

theorem parse_message_line_append {l rest : List Char} {m : Message}
    (hnl : ('\n') ∉ l) (h : parse_message l = some ([], m)) :
    parse_message (l ++ '\n' :: rest) = some ('\n' :: rest, m) := by
  unfold parse_message at h
  split at h
  · simp at h
  next i1 ts lv src h1 =>
  split at h
  · simp at h
  next i2 h2 =>
  simp at h
  obtain ⟨h3, h4⟩ := h
  have hi1 : i1 ≠ [] := by
    rw [tag_inv h2, data_SPACE]
    simp
  have hsub : i2 <:+ l := by
    have s1 : i1 <:+ l := pHeader_suffix h1
    have s2 : i2 <:+ i1 := ⟨(" ").data, (tag_inv h2).symm⟩
    exact s2.trans s1
  have hnl2 : ∀ x ∈ i2, notNl x = true := by
    intro x hx
    simp [notNl]
    intro h0
    rw [h0] at hx
    exact hnl (hsub.subset hx)
  have e1 : pHeader (l ++ '\n' :: rest) = some (i1 ++ '\n' :: rest, (ts, lv, src)) :=
    pHeader_append h1 ('\n' :: rest)
  have e2 : tag ((" ").data) (i1 ++ '\n' :: rest) = some (i2 ++ '\n' :: rest) :=
    tag_append h2 ('\n' :: rest)
  have hk := takeWhile_append_all (a := '\n') (c := i2) rest hnl2 (by simp [notNl])
  have hta : i2.takeWhile notNl = i2 := (takeWhile_of_all hnl2).1
  unfold parse_message
  simp only [e1, e2, hk.1, hk.2]
  rw [hta] at h4
  simp [h4]

theorem parse_message_none_of_head {i : List Char} (h : i.head? ≠ some '[') :
    parse_message i = none := by
  cases i with
  | nil => rfl
  | cons c cs =>
    have hc : c ≠ '[' := by
      intro h0
      rw [h0] at h
      simp at h
    simp [parse_message, pHeader, tag, data_LBRACK, hc]

theorem parseLineNl_start {l rest : List Char} {m : Message} (hnl : ('\n') ∉ l)
    (h : parse_message l = some ([], m)) :
    parseLineNl (l ++ '\n' :: rest) = some (rest, ParsedLine.Start m) := by
  unfold parseLineNl altLine
  rw [parse_message_line_append hnl h]
  simp

theorem parseLineNl_cont {c rest : List Char} (hnl : ('\n') ∉ c)
    (hpm : parse_message (c ++ '\n' :: rest) = none) :
    parseLineNl (c ++ '\n' :: rest) = some (rest, ParsedLine.Continued c) := by
  unfold parseLineNl altLine
  rw [hpm]
  have hall : ∀ x ∈ c, notNl x = true := by
    intro x hx
    simp [notNl]
    intro h0
    rw [h0] at hx
    exact hnl hx
  have hk := takeWhile_append_all (a := '\n') (c := c) rest hall (by simp [notNl])
  simp [hk.1, hk.2]

theorem foldStep_none (pl : ParsedLine) : foldStep none pl = none := by
  cases pl <;> rfl

theorem parse_log_aux_none_acc (i : List Char) : (parse_log_aux none i).2 = none := by
  rcases h : parseLineNl i with _ | ⟨r, pl⟩
  · rw [parse_log_aux_done h]
  · rw [parse_log_aux_step h, foldStep_none]
    exact parse_log_aux_none_acc r
termination_by i.length
decreasing_by exact parseLineNl_length h

/-- Concatenate lines, terminating each with a newline. -/
def joinNl : List (List Char) → List Char
  | [] => []
  | l :: ls => l ++ '\n' :: joinNl ls

/-- What folding the continuation lines `cs` appends to the owning message's
contents: each continuation line's text preceded by an embedded newline. -/
def contJoin : List (List Char) → List Char
  | [] => []
  | c :: cs => '\n' :: (c ++ contJoin cs)

theorem parseLineNl_nil : parseLineNl [] = none := rfl

theorem parse_log_aux_header_lines {lines : List (List Char)} {msgs : List Message}
    (h : List.Forall₂ (fun l m => ('\n') ∉ l ∧ parse_message l = some ([], m)) lines msgs) :
    ∀ acc, parse_log_aux (some acc) (joinNl lines) = ([], some (msgs.reverse ++ acc)) := by
  induction h with
  | nil =>
    intro acc
    rw [joinNl, parse_log_aux_done parseLineNl_nil]
    simp
  | cons hlm hrest ih =>
    intro acc
    rw [joinNl, parse_log_aux_step (parseLineNl_start hlm.1 hlm.2)]
    simp only [foldStep, Option.map]
    rw [ih]
    simp

theorem head_ne_lbrack_append {c rest : List Char} (h : c.head? ≠ some '[') :
    (c ++ '\n' :: rest).head? ≠ some '[' := by
  cases c with
  | nil =>
    intro h0
    simp only [List.nil_append, List.head?_cons, Option.some.injEq] at h0
    exact absurd h0 (by decide)
  | cons d ds => simpa using h

theorem parse_log_aux_cont_lines :
    ∀ (cs : List (List Char)) (last : Message) (accRest : List Message),
      (∀ c ∈ cs, ('\n') ∉ c ∧ c.head? ≠ some '[') →
      parse_log_aux (some (last :: accRest)) (joinNl cs)
        = ([], some ({ last with contents := last.contents ++ contJoin cs } :: accRest)) := by
  intro cs
  induction cs with
  | nil =>
    intro last accRest _
    rw [joinNl, parse_log_aux_done parseLineNl_nil]
    simp [contJoin]
  | cons c cs ih =>
    intro last accRest hall
    have hc := hall c (by simp)
    have hrest : ∀ x ∈ cs, ('\n') ∉ x ∧ x.head? ≠ some '[' := fun x hx => hall x (by simp [hx])
    have hpm : parse_message (c ++ '\n' :: joinNl cs) = none :=
      parse_message_none_of_head (head_ne_lbrack_append hc.2)
    rw [joinNl, parse_log_aux_step (parseLineNl_cont hc.1 hpm)]
    have hstep : foldStep (some (last :: accRest)) (ParsedLine.Continued c)
        = some ({ last with contents := last.contents ++ ('\n' :: c) } :: accRest) := rfl
    rw [hstep, ih _ accRest hrest]
    simp [contJoin, List.append_assoc]

/-! # Claim theorems -/

theorem parse_eq_of_aux {i r : List Char} {acc : Option (List Message)}
    (h : parse_log_aux (some []) i = (r, acc)) : parse i = acc.map List.reverse := by
  simp [parse, parse_log, h]

/-- C1: the claim states the Streamed scenario (lines `"[00:0"` then
`"1:02 INFO X] hi\n"` over two polls against an empty Log) yields `None`
then `Some` with exactly one message, each buffered line being appended to
the unparsed buffer exactly once. The code appends the FIRST drained line
twice (duplicated `push_str`, src/source.rs lines 202 and 205), and `parse`
silently ignores a trailing unterminated line, so the first poll actually
returns `Some` of a zero-message log whose raw text is `"[00:0[00:0"`, and
the second poll fails to re-parse and returns `None` while keeping the
doubled buffer: this theorem evaluates the model at the scenario. -/
theorem c1_streamed_scenario_eval :
    ReaderLogSource.update_log ⟨[]⟩ [Except.ok (("[00:0").data)] Log.empty
      = Except.ok (⟨[]⟩, some ⟨("[00:0[00:0").data, []⟩)
    ∧ ReaderLogSource.update_log ⟨[]⟩ [Except.ok (("1:02 INFO X] hi\n").data)]
        ⟨("[00:0[00:0").data, []⟩
      = Except.ok (⟨("1:02 INFO X] hi\n1:02 INFO X] hi\n").data⟩, none) :=
  ⟨rfl, rfl⟩

/-- C2: the claim states `by_source` maps every source `s` to the full
ordered sub-sequence of messages with source `s`, even across interleavings.
The code groups with itertools `group_by` (consecutive runs only) and
collects into a `HashMap`, so a later run overwrites an earlier one: on the
input below, source `"A"` has messages `a1` and `a2`, but the map holds only
`[a2]`. This theorem evaluates the model at that failing input. -/
theorem c2_by_source_drops_interleaved_run :
    (Log.parse (("[00:00:01 INFO A] a1\n[00:00:02 INFO B] b1\n[00:00:03 INFO A] a2\n").data)).map
        (fun log => (log.messages, log.by_source (("A").data)))
      = some ([⟨⟨0, 0, 1⟩, Level.Info, ("A").data, ("a1").data⟩,
            ⟨⟨0, 0, 2⟩, Level.Info, ("B").data, ("b1").data⟩,
            ⟨⟨0, 0, 3⟩, Level.Info, ("A").data, ("a2").data⟩],
          some [⟨⟨0, 0, 3⟩, Level.Info, ("A").data, ("a2").data⟩]) :=
  rfl

/-- C3 counterexample: the claim says every LogSource variant's `update_log`
never returns `Err` during a live update; but a Streamed source propagates a
forwarded reader I/O error with `?` (src/source.rs lines 199 and 207), so
`update_log` returns `Err` when the drained channel holds an error. -/
theorem c3_counterexample_reader_io_error :
    ReaderLogSource.update_log ⟨[]⟩ [Except.error ()] Log.empty = Except.error () :=
  rfl

/-- Whether an `Except` value is `Ok`. -/
def exceptOk {α : Type} : Except Unit α → Bool
  | Except.ok _ => true
  | Except.error _ => false

theorem followedStep_ok (acc : Option Log) (e : FileUpdate) :
    ∃ acc2, followedStep acc e = Except.ok acc2 := by
  cases e with
  | Removed => exact ⟨some Log.default, rfl⟩
  | Updated rr =>
    rcases h : Log.parse_reader rr with _ | l
    · exact ⟨acc, by simp [followedStep, h]⟩
    · exact ⟨some l, by simp [followedStep, h]⟩

theorem tryFold_followed_ok : ∀ (events : List FileUpdate) (acc : Option Log),
    exceptOk (tryFold followedStep acc events) = true := by
  intro events
  induction events with
  | nil => intro acc; rfl
  | cons e es ih =>
    intro acc
    obtain ⟨acc2, he⟩ := followedStep_ok acc e
    simp [tryFold, he, ih acc2]

theorem drainLines_ok : ∀ (rest : List (Except Unit (List Char))) (st : ReaderLogSource),
    (∀ x ∈ rest, x ≠ Except.error ()) → ∃ st2, drainLines st rest = Except.ok st2 := by
  intro rest
  induction rest with
  | nil => intro st _; exact ⟨st, rfl⟩
  | cons x xs ih =>
    intro st hok
    cases x with
    | error e =>
      cases e
      exact absurd rfl (hok (Except.error ()) (by simp))
    | ok l =>
      obtain ⟨st2, h2⟩ := ih ⟨st.unparsed ++ l⟩ (fun y hy => hok y (by simp [hy]))
      exact ⟨st2, by rw [drainLines, h2]⟩

/-- C3 (amended): errors during live updates are non-fatal for Static and
Followed sources — `update_log` always returns `Ok`, and a failed re-open or
re-parse leaves the accumulator (the previously held Log) unchanged; for a
Streamed source, `update_log` returns `Ok` whenever the drained channel
holds no forwarded I/O error (parse failures are non-fatal and keep the
buffer), but a forwarded I/O error is returned as `Err` (see the
counterexample). -/
theorem c3_update_errors_nonfatal :
    (∀ log : Log, StaticLogSource.update_log log = Except.ok none)
    ∧ (∀ events : List FileUpdate, exceptOk (FollowedLogSource.update_log events) = true)
    ∧ (∀ acc : Option Log, followedStep acc (FileUpdate.Updated none) = Except.ok acc)
    ∧ (∀ (acc : Option Log) (raw : List Char), Log.parse raw = none →
        followedStep acc (FileUpdate.Updated (some raw)) = Except.ok acc)
    ∧ (∀ (st : ReaderLogSource) (pending : List (Except Unit (List Char))) (log : Log),
        (∀ x ∈ pending, x ≠ Except.error ()) →
        exceptOk (ReaderLogSource.update_log st pending log) = true) := by
  refine ⟨fun log => rfl, fun events => tryFold_followed_ok events none, fun acc => rfl,
    ?_, ?_⟩
  · intro acc raw h
    simp [followedStep, Log.parse_reader, h]
  · intro st pending log hok
    cases pending with
    | nil => rfl
    | cons x rest =>
      cases x with
      | error e =>
        cases e
        exact absurd rfl (hok (Except.error ()) (by simp))
      | ok l =>
        obtain ⟨st2, hd⟩ := drainLines_ok rest ⟨st.unparsed ++ l ++ l⟩
          (fun y hy => hok y (by simp [hy]))
        simp only [ReaderLogSource.update_log, hd]
        rcases hp : Log.parse (log.raw ++ st2.unparsed) with _ | lg <;> simp [hp, exceptOk]

/-- C3 witness: the amended theorem applied at concrete inputs. -/
theorem c3_update_errors_nonfatal_witness :
    StaticLogSource.update_log Log.empty = Except.ok none
    ∧ exceptOk (FollowedLogSource.update_log [FileUpdate.Removed]) = true
    ∧ followedStep (some Log.empty) (FileUpdate.Updated none) = Except.ok (some Log.empty)
    ∧ followedStep none (FileUpdate.Updated (some (("x\n").data))) = Except.ok none
    ∧ exceptOk (ReaderLogSource.update_log ⟨[]⟩ [Except.ok (("a").data)] Log.empty) = true :=
  ⟨c3_update_errors_nonfatal.1 Log.empty,
    c3_update_errors_nonfatal.2.1 [FileUpdate.Removed],
    c3_update_errors_nonfatal.2.2.1 (some Log.empty),
    c3_update_errors_nonfatal.2.2.2.1 none (("x\n").data) rfl,
    c3_update_errors_nonfatal.2.2.2.2 ⟨[]⟩ [Except.ok (("a").data)] Log.empty
      (by intro x hx; simp at hx; subst hx; simp)⟩

/-- C4: for every sequence of N well-formed, newline-terminated header lines
with zero continuation lines, `parse` succeeds with exactly N messages, the
i-th output message corresponding to the i-th header line (document order).
A well-formed header line is one with no embedded newline that
`parse_message` consumes entirely, producing that message. -/
theorem c4_header_lines_parse_in_order (lines : List (List Char)) (msgs : List Message)
    (h : List.Forall₂ (fun l m => ('\n') ∉ l ∧ parse_message l = some ([], m)) lines msgs) :
    parse (joinNl lines) = some msgs ∧ msgs.length = lines.length := by
  constructor
  · rw [parse_eq_of_aux (parse_log_aux_header_lines h [])]
    simp
  · exact h.length_eq.symm

/-- C4 witness: two concrete header lines parse to the two messages, in
order. -/
theorem c4_header_lines_witness :
    parse (joinNl [("[00:01:02 INFO A] x").data, ("[00:01:03 WARN B] y").data])
      = some [⟨⟨0, 1, 2⟩, Level.Info, ("A").data, ("x").data⟩,
          ⟨⟨0, 1, 3⟩, Level.Warn, ("B").data, ("y").data⟩]
    ∧ ([⟨⟨0, 1, 2⟩, Level.Info, ("A").data, ("x").data⟩,
          (⟨⟨0, 1, 3⟩, Level.Warn, ("B").data, ("y").data⟩ : Message)]).length = 2 :=
  ⟨(c4_header_lines_parse_in_order _ _
      (List.Forall₂.cons (by exact ⟨by decide, by decide⟩)
        (List.Forall₂.cons (by exact ⟨by decide, by decide⟩) List.Forall₂.nil))).1,
    rfl⟩

/-- C5 counterexample: the claim says any input whose first line (a line not
matching the header grammar) precedes every header line fails to parse. But
`take_till1(']')` is not line-bounded: the source field may span a newline.
In `"[00:01:02 INFO foo\nbar] x\n"` the first line `"[00:01:02 INFO foo"`
does not match the header grammar on its own, no header line precedes it,
yet the document parses into one message with source `"foo\nbar"`. -/
theorem c5_counterexample_multiline_source :
    parse_message (("[00:01:02 INFO foo").data) = none
    ∧ parse (("[00:01:02 INFO foo\nbar] x\n").data)
      = some [⟨⟨0, 1, 2⟩, Level.Info, ("foo\nbar").data, ("x").data⟩] :=
  ⟨rfl, rfl⟩

/-- C5 (amended): a first line at which the message grammar fails in context
— in particular any first line not beginning with `[` (the empty line
included) — makes the whole document fail to parse: the continuation has no
message to attach to and the error is sticky. (As stated the claim is false
only for lines that open a header whose source spans the newline; see the
counterexample.) -/
theorem c5_continuation_before_header_fails :
    (∀ i : List Char, i.head? ≠ some '[' → parse_message i = none)
    ∧ ∀ (c rest : List Char), ('\n') ∉ c → parse_message (c ++ '\n' :: rest) = none →
        parse (c ++ '\n' :: rest) = none := by
  refine ⟨fun i h => parse_message_none_of_head h, ?_⟩
  intro c rest hnl hpm
  have h1 : parse_log_aux (some ([] : List Message)) (c ++ '\n' :: rest)
      = parse_log_aux none rest := by
    rw [parse_log_aux_step (parseLineNl_cont hnl hpm)]
    rfl
  rcases hq : parse_log_aux (none : Option (List Message)) rest with ⟨r2, acc2⟩
  have hacc : acc2 = none := by
    have := parse_log_aux_none_acc rest
    rw [hq] at this
    exact this
  rw [parse_eq_of_aux (h1.trans hq), hacc]
  rfl

/-- C5 witness: the amended theorem applied at the input `"details\n"`. -/
theorem c5_continuation_before_header_witness :
    parse_message (("details").data ++ '\n' :: []) = none
    ∧ parse (("details").data ++ '\n' :: []) = none :=
  ⟨c5_continuation_before_header_fails.1 (("details").data ++ '\n' :: []) (by decide),
    c5_continuation_before_header_fails.2 (("details").data) [] (by decide)
      (c5_continuation_before_header_fails.1 (("details").data ++ '\n' :: []) (by decide))⟩

/-- C6: the concrete scenario parses to the two stated messages, and in
general a message whose header line is followed by continuation lines (here:
newline-free lines not beginning with `[`) stores as contents its header
line's first-line contents followed by each continuation line's contents,
each preceded by an embedded newline (`contJoin`). -/
theorem c6_contents_joining :
    (parse (("[00:01:02 INFO SMAPI] Loaded\n[00:01:03 ERROR Mod.A] Boom\ndetails\n").data)
      = some [⟨⟨0, 1, 2⟩, Level.Info, ("SMAPI").data, ("Loaded").data⟩,
          ⟨⟨0, 1, 3⟩, Level.Error, ("Mod.A").data, ("Boom\ndetails").data⟩])
    ∧ ∀ (l : List Char) (m : Message) (cs : List (List Char)),
        ('\n') ∉ l → parse_message l = some ([], m) →
        (∀ c ∈ cs, ('\n') ∉ c ∧ c.head? ≠ some '[') →
        parse (l ++ '\n' :: joinNl cs)
          = some [{ m with contents := m.contents ++ contJoin cs }] := by
  refine ⟨rfl, ?_⟩
  intro l m cs hnl hm hcs
  have h1 : parse_log_aux (some ([] : List Message)) (l ++ '\n' :: joinNl cs)
      = parse_log_aux (some [m]) (joinNl cs) := by
    rw [parse_log_aux_step (parseLineNl_start hnl hm)]
    rfl
  rw [parse_eq_of_aux (h1.trans (parse_log_aux_cont_lines cs m [] hcs))]
  rfl

/-- C6 witness: the joining rule applied at a concrete two-continuation
block. -/
theorem c6_contents_joining_witness :
    parse ((("[00:01:02 INFO X] a").data) ++ '\n' :: joinNl [("b").data, ("c d").data])
      = some [⟨⟨0, 1, 2⟩, Level.Info, ("X").data,
          ("a").data ++ contJoin [("b").data, ("c d").data]⟩] :=
  c6_contents_joining.2 (("[00:01:02 INFO X] a").data)
    ⟨⟨0, 1, 2⟩, Level.Info, ("X").data, ("a").data⟩ [("b").data, ("c d").data]
    (by decide) (by decide) (by decide)

/-- C9 counterexample: the claim says `parse` errors on every non-empty
input whose final character is not a newline; but nom's `complete` does not
require full consumption and `parse` discards the remainder, so the
one-line, newline-free input `"X"` parses successfully to zero messages. -/
theorem c9_counterexample_no_trailing_newline :
    parse (("X").data) = some [] ∧ (("X").data ≠ ([] : List Char)) :=
  ⟨rfl, by decide⟩

/-- C9 (amended): `parse` never fails on account of a missing trailing
newline: it consumes only newline-terminated lines and ignores the trailing
remainder (never emitting it as a message nor folding it as a continuation).
In particular every input without any newline — the empty string included —
parses successfully to zero messages. -/
theorem c9_trailing_line_ignored : ∀ t : List Char, ('\n') ∉ t → parse t = some [] := by
  intro t hnl
  have hline : parseLineNl t = none := by
    have hs := altLine_suffix t
    unfold parseLineNl
    rcases halt : altLine t with ⟨r, pl⟩
    rw [halt] at hs
    simp at hs
    rcases r with _ | ⟨c, crest⟩
    · rfl
    · have hc : c ≠ '\n' := by
        intro h0
        refine hnl (hs.subset ?_)
        rw [h0]
        exact List.mem_cons_self '\n' crest
      simp [hc]
  rw [parse_eq_of_aux (parse_log_aux_done hline)]
  rfl

/-- C9 witness: the amended theorem applied at the newline-free input
`"abc"`. -/
theorem c9_trailing_line_ignored_witness : parse (("abc").data) = some [] :=
  c9_trailing_line_ignored (("abc").data) (by decide)

theorem level_enabled_of_all_true {f : LogFilters} (h : ∀ p ∈ f.levels, p.2 = true)
    (lv : Level) : f.level_enabled lv = true := by
  unfold LogFilters.level_enabled lookupLv
  rcases hf : f.levels.find? (fun p => decide (p.1 = lv)) with _ | pp
  · simp [hf]
  · have hm := List.mem_of_find?_eq_some hf
    simp [hf, h pp hm]

theorem source_enabled_of_all_true {f : LogFilters} (h : ∀ p ∈ f.sources, p.2 = true)
    (s : List Char) : f.source_enabled s = true := by
  unfold LogFilters.source_enabled lookupSrc
  rcases hf : f.sources.find? (fun p => decide (p.1 = s)) with _ | pp
  · simp [hf]
  · have hm := List.mem_of_find?_eq_some hf
    simp [hf, h pp hm]

/-- C7: `apply` yields exactly the messages of the log, in document order
(a sublist), for which `level_enabled && source_enabled` holds, absent
entries defaulting to enabled; disabling every level empties the result
regardless of source flags; enabling every level and every known source
reproduces the full sequence. -/
theorem c7_filters_apply :
    (∀ (f : LogFilters) (log : Log),
      (f.apply log).Sublist log.messages
      ∧ ∀ m : Message, m ∈ f.apply log ↔
          m ∈ log.messages ∧ (f.level_enabled m.level && f.source_enabled m.source) = true)
    ∧ (∀ (f : LogFilters) (log : Log), (∀ lv : Level, lookupLv f.levels lv = some false) →
        f.apply log = [])
    ∧ (∀ (f : LogFilters) (log : Log), (∀ p ∈ f.levels, p.2 = true) →
        (∀ p ∈ f.sources, p.2 = true) → f.apply log = log.messages) := by
  refine ⟨fun f log => ⟨List.filter_sublist _, fun m => by simp [LogFilters.apply]⟩, ?_, ?_⟩
  · intro f log hall
    unfold LogFilters.apply
    apply List.filter_eq_nil_iff.mpr
    intro m _
    simp [LogFilters.level_enabled, hall m.level]
  · intro f log hlv hsrc
    unfold LogFilters.apply
    apply List.filter_eq_self.mpr
    intro m _
    simp [level_enabled_of_all_true hlv, source_enabled_of_all_true hsrc]

/-- C7 witness: the all-disabled and all-enabled parts applied at a concrete
filter set and log. -/
theorem c7_filters_apply_witness :
    LogFilters.apply
        ⟨[(Level.Trace, false), (Level.Debug, false), (Level.Info, false),
            (Level.Alert, false), (Level.Warn, false), (Level.Error, false)],
          [((("A").data), true)]⟩
        ⟨[], [⟨⟨0, 0, 1⟩, Level.Info, ("A").data, ("m").data⟩]⟩ = []
    ∧ LogFilters.apply
        ⟨[(Level.Trace, true), (Level.Debug, true), (Level.Info, true),
            (Level.Alert, true), (Level.Warn, true), (Level.Error, true)],
          [((("A").data), true)]⟩
        ⟨[], [⟨⟨0, 0, 1⟩, Level.Info, ("A").data, ("m").data⟩]⟩
      = [⟨⟨0, 0, 1⟩, Level.Info, ("A").data, ("m").data⟩] :=
  ⟨c7_filters_apply.2.1 _ _ (by intro lv; cases lv <;> rfl),
    c7_filters_apply.2.2 _ _
      (by intro p hp; simp at hp; rcases hp with rfl | rfl | rfl | rfl | rfl | rfl <;> rfl)
      (by intro p hp; simp at hp; subst hp; rfl)⟩

theorem mem_runsBySource_keys : ∀ (ms : List Message) (s : List Char),
    s ∈ (runsBySource ms).map Prod.fst ↔ ∃ m ∈ ms, m.source = s := by
  intro ms
  induction ms with
  | nil => intro s; simp [runsBySource]
  | cons m ms ih =>
    intro s
    unfold runsBySource
    rcases hr : runsBySource ms with _ | ⟨⟨s0, g⟩, rest⟩
    · simp only [hr]
      rw [hr] at ih
      simp only [List.map_nil, List.not_mem_nil, false_iff, not_exists] at ih
      simp only [List.map_cons, List.map_nil, List.mem_singleton]
      constructor
      · intro h
        exact ⟨m, by simp, h.symm⟩
      · rintro ⟨m2, hm2, hs2⟩
        rcases List.mem_cons.mp hm2 with rfl | hmem
        · exact hs2.symm
        · exact absurd ⟨hmem, hs2⟩ (ih s m2)
    · simp only [hr]
      rw [hr] at ih
      simp only [List.map_cons, List.mem_cons] at ih
      by_cases hms : m.source = s0
      · rw [if_pos hms]
        simp only [List.map_cons, List.mem_cons]
        constructor
        · intro h
          obtain ⟨m2, hm2, hs2⟩ := (ih s).mp h
          exact ⟨m2, Or.inr hm2, hs2⟩
        · rintro ⟨m2, hm2, hs2⟩
          rcases hm2 with rfl | hmem
          · exact Or.inl (by rw [← hs2]; exact hms)
          · exact (ih s).mpr ⟨m2, hmem, hs2⟩
      · rw [if_neg hms]
        simp only [List.map_cons, List.mem_cons]
        constructor
        · intro h
          rcases h with h | h
          · exact ⟨m, Or.inl rfl, h.symm⟩
          · obtain ⟨m2, hm2, hs2⟩ := (ih s).mp h
            exact ⟨m2, Or.inr hm2, hs2⟩
        · rintro ⟨m2, hm2, hs2⟩
          rcases hm2 with rfl | hmem
          · exact Or.inl hs2.symm
          · exact Or.inr ((ih s).mpr ⟨m2, hmem, hs2⟩)

theorem lookupSrc_map_self (l : List (List Char)) (g : List Char → Bool) (s : List Char) :
    lookupSrc (l.map fun t => (t, g t)) s = if s ∈ l then some (g s) else none := by
  induction l with
  | nil => simp [lookupSrc]
  | cons a as ih =>
    by_cases ha : a = s
    · subst ha
      unfold lookupSrc
      rw [List.map_cons, List.find?_cons_of_pos _ (by simp)]
      simp
    · unfold lookupSrc at ih ⊢
      rw [List.map_cons, List.find?_cons_of_neg _ (by simp [ha]), ih]
      have hiff : s ∈ a :: as ↔ s ∈ as := by
        constructor
        · intro h0
          rcases List.mem_cons.mp h0 with h1 | h1
          · exact absurd h1.symm ha
          · exact h1
        · exact List.mem_cons_of_mem a
      exact (if_congr hiff rfl rfl).symm

theorem mem_sortSources {l : List (List Char)} {s : List Char} :
    s ∈ sortSources l ↔ s ∈ l :=
  (List.perm_insertionSort rLex l).mem_iff

/-- C8: `with_log` keeps the per-level flags unchanged and rebuilds the
source map so that its key list is exactly the new log's distinct source
names (precisely the sources occurring among the messages, without
duplicates) in lexicographically sorted order; every source of the new log
gets its previous flag when it had one, else enabled (the default). -/
theorem c8_with_log_reconcile (f : LogFilters) (log : Log) :
    (f.with_log log).levels = f.levels
    ∧ (f.with_log log).sources.map Prod.fst = sortSources log.sources
    ∧ List.Sorted rLex ((f.with_log log).sources.map Prod.fst)
    ∧ ((f.with_log log).sources.map Prod.fst).Nodup
    ∧ (∀ s : List Char, s ∈ (f.with_log log).sources.map Prod.fst ↔
        ∃ m ∈ log.messages, m.source = s)
    ∧ (∀ s : List Char, (∃ m ∈ log.messages, m.source = s) →
        lookupSrc (f.with_log log).sources s
          = some ((lookupSrc f.sources s).getD true)) := by
  have hkeys : (f.with_log log).sources.map Prod.fst = sortSources log.sources := by
    simp only [LogFilters.with_log, List.map_map]
    have hid : (Prod.fst ∘ fun s : List Char => (s, (lookupSrc f.sources s).getD true)) = id :=
      funext fun s => rfl
    rw [hid, List.map_id]
  have hmem : ∀ s : List Char, s ∈ sortSources log.sources ↔ ∃ m ∈ log.messages, m.source = s := by
    intro s
    rw [mem_sortSources]
    unfold Log.sources
    rw [List.mem_dedup]
    exact mem_runsBySource_keys log.messages s
  refine ⟨rfl, hkeys, ?_, ?_, ?_, ?_⟩
  · rw [hkeys]
    exact List.sorted_insertionSort rLex log.sources
  · rw [hkeys]
    exact ((List.perm_insertionSort rLex log.sources).nodup_iff).mpr (List.nodup_dedup _)
  · intro s
    rw [hkeys]
    exact hmem s
  · intro s hs
    unfold LogFilters.with_log
    rw [lookupSrc_map_self]
    simp [(hmem s).mpr hs]

/-- C8 witness: reconciliation at a concrete filter set and log — the level
flags move unchanged, and a source present in the new log keeps its old
(disabled) flag. -/
theorem c8_with_log_reconcile_witness :
    (LogFilters.with_log ⟨[(Level.Info, false)], [((("A").data), false)]⟩
        ⟨[], [⟨⟨0, 0, 1⟩, Level.Info, ("A").data, ("m").data⟩]⟩).levels
      = [(Level.Info, false)]
    ∧ lookupSrc (LogFilters.with_log ⟨[(Level.Info, false)], [((("A").data), false)]⟩
        ⟨[], [⟨⟨0, 0, 1⟩, Level.Info, ("A").data, ("m").data⟩]⟩).sources (("A").data)
      = some ((lookupSrc [((("A").data), false)] (("A").data)).getD true) :=
  ⟨(c8_with_log_reconcile ⟨[(Level.Info, false)], [((("A").data), false)]⟩
      ⟨[], [⟨⟨0, 0, 1⟩, Level.Info, ("A").data, ("m").data⟩]⟩).1,
    (c8_with_log_reconcile ⟨[(Level.Info, false)], [((("A").data), false)]⟩
      ⟨[], [⟨⟨0, 0, 1⟩, Level.Info, ("A").data, ("m").data⟩]⟩).2.2.2.2.2 (("A").data)
      ⟨⟨⟨0, 0, 1⟩, Level.Info, ("A").data, ("m").data⟩, by simp, rfl⟩⟩

theorem tag_lbrack (y : List Char) : tag (("[").data) ('[' :: y) = some y := rfl

theorem tag_lbrack_lit (y : List Char) : tag ['['] ('[' :: y) = some y := rfl

theorem tag_colon (y : List Char) : tag ((":").data) (':' :: y) = some y := rfl

theorem tag_colon_lit (y : List Char) : tag [':'] (':' :: y) = some y := rfl

theorem isSpaceTab_of_digit {d : Char} (h : isDigitC d = true) : isSpaceTab d = false := by
  simp [isDigitC] at h
  have h1 : d ≠ ' ' := by
    intro h0
    rw [h0] at h
    have h32 : (' ').toNat = 32 := rfl
    omega
  have h2 : d ≠ '\t' := by
    intro h0
    rw [h0] at h
    have h9 : ('\t').toNat = 9 := rfl
    omega
  simp [isSpaceTab, h1, h2]

theorem digit1_run {ds : List Char} (h1 : ds ≠ []) (h2 : ∀ c ∈ ds, isDigitC c = true)
    {a : Char} (ha : isDigitC a = false) (tl : List Char) :
    digit1 (ds ++ a :: tl) = some (a :: tl, ds) := by
  have hk := takeWhile_append_all (a := a) (c := ds) tl h2 ha
  exact span1_of_parts hk.1 hk.2 h1

theorem pTimestamp_runs_none {hh mm ss : List Char} (tl : List Char)
    (hh1 : hh ≠ []) (hh2 : ∀ c ∈ hh, isDigitC c = true)
    (mm1 : mm ≠ []) (mm2 : ∀ c ∈ mm, isDigitC c = true)
    (ss1 : ss ≠ []) (ss2 : ∀ c ∈ ss, isDigitC c = true)
    (hbad : 255 < natOfDigits hh ∨ 255 < natOfDigits mm ∨ 255 < natOfDigits ss) :
    pTimestamp (hh ++ ':' :: (mm ++ ':' :: (ss ++ ' ' :: tl))) = none := by
  have d1 : digit1 (hh ++ ':' :: (mm ++ ':' :: (ss ++ ' ' :: tl)))
      = some (':' :: (mm ++ ':' :: (ss ++ ' ' :: tl)), hh) :=
    digit1_run hh1 hh2 (by decide) _
  have d2 : digit1 (mm ++ ':' :: (ss ++ ' ' :: tl)) = some (':' :: (ss ++ ' ' :: tl), mm) :=
    digit1_run mm1 mm2 (by decide) _
  have d3 : digit1 (ss ++ ' ' :: tl) = some (' ' :: tl, ss) :=
    digit1_run ss1 ss2 (by decide) _
  unfold pTimestamp
  simp only [d1, tag_colon, tag_colon_lit, d2, d3]
  rcases hp1 : parseU8 hh with _ | v1
  · simp [hp1]
  rcases hp2 : parseU8 mm with _ | v2
  · simp [hp1, hp2]
  rcases hp3 : parseU8 ss with _ | v3
  · simp [hp1, hp2, hp3]
  exfalso
  unfold parseU8 at hp1 hp2 hp3
  rcases hbad with hb | hb | hb
  · rw [if_neg (by omega)] at hp1
    simp at hp1
  · rw [if_neg (by omega)] at hp2
    simp at hp2
  · rw [if_neg (by omega)] at hp3
    simp at hp3

theorem pTimestamp_runs_some {hh mm ss : List Char} (tl : List Char)
    (hh1 : hh ≠ []) (hh2 : ∀ c ∈ hh, isDigitC c = true)
    (mm1 : mm ≠ []) (mm2 : ∀ c ∈ mm, isDigitC c = true)
    (ss1 : ss ≠ []) (ss2 : ∀ c ∈ ss, isDigitC c = true)
    (hle1 : natOfDigits hh ≤ 255) (hle2 : natOfDigits mm ≤ 255)
    (hle3 : natOfDigits ss ≤ 255) :
    pTimestamp (hh ++ ':' :: (mm ++ ':' :: (ss ++ ' ' :: tl)))
      = some (' ' :: tl, ⟨natOfDigits hh, natOfDigits mm, natOfDigits ss⟩) := by
  have d1 : digit1 (hh ++ ':' :: (mm ++ ':' :: (ss ++ ' ' :: tl)))
      = some (':' :: (mm ++ ':' :: (ss ++ ' ' :: tl)), hh) :=
    digit1_run hh1 hh2 (by decide) _
  have d2 : digit1 (mm ++ ':' :: (ss ++ ' ' :: tl)) = some (':' :: (ss ++ ' ' :: tl), mm) :=
    digit1_run mm1 mm2 (by decide) _
  have d3 : digit1 (ss ++ ' ' :: tl) = some (' ' :: tl, ss) :=
    digit1_run ss1 ss2 (by decide) _
  unfold pTimestamp
  simp only [d1, tag_colon, tag_colon_lit, d2, d3]
  simp [parseU8, hle1, hle2, hle3]

/-- A header-shaped line `[hh:mm:ss INFO X] hi` with the three timestamp
digit-runs as parameters. -/
def mkTsLine (hh mm ss : List Char) : List Char :=
  '[' :: (hh ++ ':' :: (mm ++ ':' :: (ss ++ ' ' :: ("INFO X] hi").data)))

theorem dropWhile_spaceTab_digit_run {hh : List Char} (h1 : hh ≠ [])
    (h2 : ∀ c ∈ hh, isDigitC c = true) (y : List Char) :
    (hh ++ y).dropWhile isSpaceTab = hh ++ y := by
  rcases hh with _ | ⟨d, ds⟩
  · exact absurd rfl h1
  · simp [List.cons_append, List.dropWhile_cons, isSpaceTab_of_digit (h2 d (by simp))]

theorem parse_message_mkTsLine_none {hh mm ss : List Char}
    (hh1 : hh ≠ []) (hh2 : ∀ c ∈ hh, isDigitC c = true)
    (mm1 : mm ≠ []) (mm2 : ∀ c ∈ mm, isDigitC c = true)
    (ss1 : ss ≠ []) (ss2 : ∀ c ∈ ss, isDigitC c = true)
    (hbad : 255 < natOfDigits hh ∨ 255 < natOfDigits mm ∨ 255 < natOfDigits ss)
    (s : List Char) : parse_message (mkTsLine hh mm ss ++ s) = none := by
  have hshape : mkTsLine hh mm ss ++ s
      = '[' :: (hh ++ ':' :: (mm ++ ':' :: (ss ++ ' ' :: (("INFO X] hi").data ++ s)))) := by
    simp [mkTsLine]
  rw [hshape]
  unfold parse_message pHeader
  simp only [tag_lbrack, tag_lbrack_lit]
  rw [dropWhile_spaceTab_digit_run hh1 hh2,
    pTimestamp_runs_none (("INFO X] hi").data ++ s) hh1 hh2 mm1 mm2 ss1 ss2 hbad]

theorem parse_message_mkTsLine_some {hh mm ss : List Char}
    (hh1 : hh ≠ []) (hh2 : ∀ c ∈ hh, isDigitC c = true)
    (mm1 : mm ≠ []) (mm2 : ∀ c ∈ mm, isDigitC c = true)
    (ss1 : ss ≠ []) (ss2 : ∀ c ∈ ss, isDigitC c = true)
    (hle1 : natOfDigits hh ≤ 255) (hle2 : natOfDigits mm ≤ 255)
    (hle3 : natOfDigits ss ≤ 255) :
    parse_message (mkTsLine hh mm ss)
      = some ([], ⟨⟨natOfDigits hh, natOfDigits mm, natOfDigits ss⟩, Level.Info,
          ("X").data, ("hi").data⟩) := by
  unfold mkTsLine parse_message pHeader
  simp only [tag_lbrack, tag_lbrack_lit]
  rw [dropWhile_spaceTab_digit_run hh1 hh2,
    pTimestamp_runs_some (("INFO X] hi").data) hh1 hh2 mm1 mm2 ss1 ss2 hle1 hle2 hle3]
  rfl

theorem nl_not_mem_mkTsLine {hh mm ss : List Char}
    (hh2 : ∀ c ∈ hh, isDigitC c = true) (mm2 : ∀ c ∈ mm, isDigitC c = true)
    (ss2 : ∀ c ∈ ss, isDigitC c = true) : ('\n') ∉ mkTsLine hh mm ss := by
  intro hmem
  rw [mkTsLine] at hmem
  simp only [List.mem_cons, List.mem_append] at hmem
  rcases hmem with h | h
  · exact absurd h (by decide)
  rcases h with h | h
  · exact absurd (hh2 _ h) (by decide)
  rcases h with h | h
  · exact absurd h (by decide)
  rcases h with h | h
  · exact absurd (mm2 _ h) (by decide)
  rcases h with h | h
  · exact absurd h (by decide)
  rcases h with h | h
  · exact absurd (ss2 _ h) (by decide)
  rcases h with h | h
  · exact absurd h (by decide)
  · exact absurd h (by decide)

theorem parse_none_of_first_cont {c rest : List Char} (hnl : ('\n') ∉ c)
    (hpm : parse_message (c ++ '\n' :: rest) = none) : parse (c ++ '\n' :: rest) = none := by
  have h1 : parse_log_aux (some ([] : List Message)) (c ++ '\n' :: rest)
      = parse_log_aux none rest := by
    rw [parse_log_aux_step (parseLineNl_cont hnl hpm)]
    rfl
  rcases hq : parse_log_aux (none : Option (List Message)) rest with ⟨r2, acc2⟩
  have hacc : acc2 = none := by
    have := parse_log_aux_none_acc rest
    rw [hq] at this
    exact this
  rw [parse_eq_of_aux (h1.trans hq), hacc]
  rfl

/-- C10: timestamp fields are `u8`-sized: a header-shaped line (here
`[hh:mm:ss INFO X] hi` with arbitrary all-digit runs) whose hour, minute or
second run denotes a value above 255 does not parse as a header in any
context; such a line is fatal with no preceding message, and is folded as a
continuation of a preceding message. Runs whose values are at most 255 are
accepted with no further range validation (e.g. hour 99). -/
theorem c10_timestamp_u8_range :
    ∀ hh mm ss : List Char,
      (hh ≠ [] ∧ ∀ c ∈ hh, isDigitC c = true) →
      (mm ≠ [] ∧ ∀ c ∈ mm, isDigitC c = true) →
      (ss ≠ [] ∧ ∀ c ∈ ss, isDigitC c = true) →
      ((255 < natOfDigits hh ∨ 255 < natOfDigits mm ∨ 255 < natOfDigits ss) →
        (∀ s : List Char, parse_message (mkTsLine hh mm ss ++ s) = none)
        ∧ parse (mkTsLine hh mm ss ++ '\n' :: []) = none
        ∧ ∀ (l0 : List Char) (m0 : Message), ('\n') ∉ l0 →
            parse_message l0 = some ([], m0) →
            parse (l0 ++ '\n' :: (mkTsLine hh mm ss ++ '\n' :: []))
              = some [{ m0 with contents := m0.contents ++ '\n' :: mkTsLine hh mm ss }])
      ∧ ((natOfDigits hh ≤ 255 ∧ natOfDigits mm ≤ 255 ∧ natOfDigits ss ≤ 255) →
        parse_message (mkTsLine hh mm ss)
          = some ([], ⟨⟨natOfDigits hh, natOfDigits mm, natOfDigits ss⟩, Level.Info,
              ("X").data, ("hi").data⟩)) := by
  rintro hh mm ss ⟨hh1, hh2⟩ ⟨mm1, mm2⟩ ⟨ss1, ss2⟩
  constructor
  · intro hbad
    have hpm : ∀ s, parse_message (mkTsLine hh mm ss ++ s) = none :=
      fun s => parse_message_mkTsLine_none hh1 hh2 mm1 mm2 ss1 ss2 hbad s
    have hnl := nl_not_mem_mkTsLine hh2 mm2 ss2
    refine ⟨hpm, parse_none_of_first_cont hnl (hpm ('\n' :: [])), ?_⟩
    intro l0 m0 hnl0 hm0
    have h1 : parse_log_aux (some ([] : List Message))
        (l0 ++ '\n' :: (mkTsLine hh mm ss ++ '\n' :: []))
        = parse_log_aux (some [m0]) (mkTsLine hh mm ss ++ '\n' :: []) := by
      rw [parse_log_aux_step (parseLineNl_start hnl0 hm0)]
      rfl
    have h2 : parse_log_aux (some [m0]) (mkTsLine hh mm ss ++ '\n' :: [])
        = parse_log_aux
            (some [{ m0 with contents := m0.contents ++ '\n' :: mkTsLine hh mm ss }]) [] := by
      rw [parse_log_aux_step (parseLineNl_cont hnl (hpm ('\n' :: [])))]
      rfl
    rw [parse_eq_of_aux ((h1.trans h2).trans (parse_log_aux_done parseLineNl_nil))]
    rfl
  · rintro ⟨hle1, hle2, hle3⟩
    exact parse_message_mkTsLine_some hh1 hh2 mm1 mm2 ss1 ss2 hle1 hle2 hle3

/-- C10 witness: hour 99 is accepted as-is; a second-run of 999 makes the
line fail as a header and fail a document it starts. -/
theorem c10_timestamp_u8_range_witness :
    parse_message (mkTsLine (("99").data) (("01").data) (("02").data))
      = some ([], ⟨⟨natOfDigits (("99").data), natOfDigits (("01").data),
          natOfDigits (("02").data)⟩, Level.Info, ("X").data, ("hi").data⟩)
    ∧ parse (mkTsLine (("00").data) (("01").data) (("999").data) ++ '\n' :: []) = none :=
  ⟨(c10_timestamp_u8_range (("99").data) (("01").data) (("02").data)
      ⟨by decide, by decide⟩ ⟨by decide, by decide⟩ ⟨by decide, by decide⟩).2
      ⟨by decide, by decide, by decide⟩,
    ((c10_timestamp_u8_range (("00").data) (("01").data) (("999").data)
      ⟨by decide, by decide⟩ ⟨by decide, by decide⟩ ⟨by decide, by decide⟩).1
      (by decide)).2.1⟩

end Pufferwatch
